import Mathlib

/-!
Verification of the Node-Based Workflow Orchestrator.

The repository's executable artifacts are the `BaseNode` class (observer
pattern, pipeline queue, config/template processing) and the front-end
form-dependency scripts.  The scheduling core (LoopManager, Orchestrator,
QueueManager) exists in this repository only as design documents; where a
claim is decided by that missing code, the corresponding definitions are
modelled from the specification and are marked as such in their doc
comments.
-/

namespace Workflow

/-! ## BaseNode: observer pattern and config processing

Translated from the `BaseNode` class (`__init__`, `add_observer`,
`_notify_observers`, `update`, `_process_config_with_payload`).
-/

/-- Runtime payload passed between nodes: a JSON-like dictionary, modelled
as an association list.  Python's truthiness test `if payload:` on a dict
is emptiness. -/
abbrev Payload := List (String × String)

/-- An observer as seen by `_notify_observers`: it has a pipeline (the
`Queue` stored in `_pipeline`) and an `update` behaviour.  Subclasses may
override `update`, so the behaviour is an arbitrary function from the
payload and the current pipeline to either a new pipeline or a raised
exception (`Except.error`). -/
structure Observer where
  oid : String
  pipeline : List Payload
  behave : Payload → List Payload → Except String (List Payload)

/-- The base-class `update` body: `self._pipeline.put(payload)`, i.e. the
payload is appended at the tail of the pipeline queue; it never raises. -/
def baseUpdate (payload : Payload) (pipe : List Payload) :
    Except String (List Payload) :=
  Except.ok (pipe ++ [payload])

/-- One pass of the `for observer in self._observers` loop body:
`try: observer.update(payload) except Exception as e: <log>`.  A raised
exception is caught and only logged, leaving the observer unchanged. -/
def notifyOne (payload : Payload) (o : Observer) : Observer :=
  match o.behave payload o.pipeline with
  | Except.ok newPipe => { o with pipeline := newPipe }
  | Except.error _ => o

/-- Translation of `_notify_observers`: `if not payload: return`, then the
loop over the observer list with the per-observer try/except.  The result
type has no exception component because the method never lets one
escape. -/
def notifyObservers (payload : Payload) : List Observer → List Observer
  | [] => []
  | o :: rest =>
    if payload = [] then o :: rest
    else notifyOne payload o :: notifyObservers payload rest

/-- A node as far as `_process_config_with_payload` is concerned: the
stored `_config` resolved at construction time. -/
structure NodeCfg where
  nid : String
  config : Payload

/-- Translation of `_process_config_with_payload`.  `payload = none`
models the default argument `payload=None`; `if payload:` is the Python
truthiness test (false for `None` and for an empty dict).  The template
processor `process_form_values` is an external collaborator and is passed
in as a function.  The method body contains no assignment to
`self._config`, so the node is returned unchanged alongside the result. -/
def processConfigWithPayload (tp : Payload → Payload → Payload)
    (node : NodeCfg) (payload : Option Payload) : NodeCfg × Payload :=
  match payload with
  | some p => if p ≠ [] then (node, tp node.config p) else (node, node.config)
  | none => (node, node.config)

theorem notifyObservers_nonempty_eq_map (payload : Payload)
    (h : payload ≠ []) :
    ∀ obs : List Observer,
      notifyObservers payload obs = obs.map (notifyOne payload) := by
  intro obs
  induction obs with
  | nil => rfl
  | cons o rest ih => simp [notifyObservers, h, ih]

/-- Claim C8: `_process_config_with_payload` never mutates the node's
stored config: the node comes back unchanged for every payload, and when
no payload is supplied (the `None` default) the stored config is returned
as-is. -/
theorem processConfigWithPayload_config_immutable :
    ∀ (tp : Payload → Payload → Payload) (node : NodeCfg)
      (payload : Option Payload),
      (processConfigWithPayload tp node payload).1 = node
      ∧ (processConfigWithPayload tp node none).2 = node.config := by
  intro tp node payload
  refine ⟨?_, rfl⟩
  match payload with
  | none => rfl
  | some p =>
    by_cases hp : p = [] <;> simp [processConfigWithPayload, hp]

/-- Claim C9: `_notify_observers` delivers a non-empty payload to every
registered observer: each observer's outcome is `notifyOne` of that
observer alone, so an exception raised by one observer (caught by the
per-observer try/except) leaves that observer unchanged and does not
prevent later observers in the list from being notified; the method's
result type carries no exception, so nothing propagates to the caller.
An observer running the base-class `update` receives the payload at the
tail of its pipeline queue. -/
theorem notifyObservers_delivers_despite_exceptions :
    ∀ (payload : Payload), payload ≠ [] →
      (∀ obs : List Observer,
        notifyObservers payload obs = obs.map (notifyOne payload))
      ∧ (∀ (pre post : List Observer) (bad : Observer) (e : String),
          bad.behave payload bad.pipeline = Except.error e →
          notifyObservers payload (pre ++ bad :: post)
            = pre.map (notifyOne payload)
              ++ bad :: post.map (notifyOne payload))
      ∧ (∀ o : Observer, o.behave = baseUpdate →
          (notifyOne payload o).pipeline = o.pipeline ++ [payload]) := by
  intro payload h
  refine ⟨notifyObservers_nonempty_eq_map payload h, ?_, ?_⟩
  · intro pre post bad e hbad
    rw [notifyObservers_nonempty_eq_map payload h]
    simp [notifyOne, hbad]
  · intro o ho
    simp [notifyOne, ho, baseUpdate]

/-- A concrete payload for the C9 witness. -/
def wPayload : Payload := [("k", "v")]

/-- A concrete observer whose overridden `update` raises. -/
def wBad : Observer :=
  { oid := "bad", pipeline := [], behave := fun _ _ => Except.error "boom" }

/-- A concrete observer running the base-class `update`. -/
def wGood : Observer :=
  { oid := "good", pipeline := [], behave := baseUpdate }

theorem notifyObservers_delivers_witness :
    notifyObservers wPayload [wBad, wGood]
      = [wBad, { wGood with pipeline := [wPayload] }] := by
  have h := (notifyObservers_delivers_despite_exceptions wPayload
    (by simp [wPayload])).2.1 [] [wGood] wBad "boom" rfl
  simpa [notifyOne, wGood, baseUpdate] using h

/-! ## QueueManager

The Redis-backed QueueManager has no implementation in the repository's
sources; its contract is given in the specification (push appends at the
tail of the named queue, pop removes the head, FIFO per name, no ordering
across names), so it is modelled from the spec here.
-/

/-- Modelled from the spec: the named-queue store of the QueueManager.
Each queue name maps to the ordered list of its serialized entries, head
first.  Missing in src: the QueueManager implementation itself. -/
def QueueStore (Data : Type) := String → List Data

/-- The store before any queue has been touched: queues are created lazily,
so every name reads as empty. -/
def emptyStore (Data : Type) : QueueStore Data := fun _ => []

/-- Modelled from the spec: `push(queueName, data)` appends `data` at the
tail of the named queue. -/
def push {Data : Type} (s : QueueStore Data) (q : String) (d : Data) :
    QueueStore Data :=
  fun q' => if q' = q then s q ++ [d] else s q'

/-- Modelled from the spec: `pop(queueName, timeout)` removes and returns
the head entry of the named queue; `none` is the distinguishable "no data"
result returned when the queue is empty at timeout. -/
def pop {Data : Type} (s : QueueStore Data) (q : String) :
    Option Data × QueueStore Data :=
  match s q with
  | [] => (none, s)
  | d :: ds => (some d, fun q' => if q' = q then ds else s q')

/-- A sequence of pushes of `vs`, in order, to queue `q`. -/
def pushAll {Data : Type} (s : QueueStore Data) (q : String) :
    List Data → QueueStore Data
  | [] => s
  | d :: ds => pushAll (push s q d) q ds

/-- `n` successive pops from queue `q`, collecting the returned entries in
order and stopping at a "no data" result. -/
def popN {Data : Type} (s : QueueStore Data) (q : String) :
    Nat → List Data
  | 0 => []
  | n + 1 =>
    match pop s q with
    | (none, _) => []
    | (some d, s') => d :: popN s' q n

theorem push_apply {Data : Type} (s : QueueStore Data) (q : String)
    (d : Data) : push s q d q = s q ++ [d] := by
  simp [push]

theorem pushAll_apply {Data : Type} (q : String) :
    ∀ (vs : List Data) (s : QueueStore Data),
      pushAll s q vs q = s q ++ vs := by
  intro vs
  induction vs with
  | nil => intro s; simp [pushAll]
  | cons v vs ih =>
    intro s
    rw [pushAll, ih, push_apply]
    simp

theorem popN_drains {Data : Type} (q : String) :
    ∀ (l : List Data) (s : QueueStore Data), s q = l →
      popN s q l.length = l := by
  intro l
  induction l with
  | nil => intro s _; rfl
  | cons d ds ih =>
    intro s h
    have hpop : pop s q = (some d, fun q' => if q' = q then ds else s q') := by
      simp [pop, h]
    rw [List.length_cons, popN, hpop]
    exact congrArg (d :: ·) (ih _ (by simp))

/-- Claim C6: the named queues are FIFO per name: `push` appends at the
tail, `pop` removes the head, successive pops return exactly the entries
in push order, and operations on one queue name do not disturb any other
name. -/
theorem queueManager_fifo_per_name {Data : Type} :
    (∀ (s : QueueStore Data) (q : String) (d : Data),
      push s q d q = s q ++ [d])
    ∧ (∀ (s : QueueStore Data) (q : String) (vs : List Data),
      pushAll s q vs q = s q ++ vs)
    ∧ (∀ (s : QueueStore Data) (q : String),
      popN s q (s q).length = s q)
    ∧ (∀ (s : QueueStore Data) (q : String) (d : Data) (ds : List Data),
      s q = d :: ds → (pop s q).1 = some d ∧ (pop s q).2 q = ds)
    ∧ (∀ (s : QueueStore Data) (q q' : String) (d : Data), q' ≠ q →
      push s q d q' = s q' ∧ (pop s q).2 q' = s q') := by
  refine ⟨fun s q d => push_apply s q d,
    fun s q vs => pushAll_apply q vs s,
    fun s q => popN_drains q (s q) s rfl, ?_, ?_⟩
  · intro s q d ds h
    constructor <;> simp [pop, h]
  · intro s q q' d hne
    constructor
    · simp [push, hne]
    · unfold pop
      match h : s q with
      | [] => rfl
      | e :: es => simp [hne]

/-- A concrete store for the C6 witness: three values pushed to `"q1"`. -/
def wStore : QueueStore Nat := pushAll (emptyStore Nat) "q1" [10, 20, 30]

theorem queueManager_fifo_witness :
    (pop wStore "q1").1 = some 10 ∧ (pop wStore "q1").2 "q1" = [20, 30] :=
  queueManager_fifo_per_name.2.2.2.1 wStore "q1" 10 [20, 30] (by
    show wStore "q1" = [10, 20, 30]
    simp [wStore, pushAll, push, emptyStore])

/-! ## LoopManager

The scheduling core (LoopManager / Orchestrator) has no executable source
in the repository; it exists only as design documents.  The per-loop
execution cycle is therefore modelled from the specification: one
iteration invokes the Producer, then walks the chain of
Blocking/ConditionalBlocking nodes sequentially, stopping at a NonBlocking
node or at the end of the chain; a node failure is dead-lettered and the
loop restarts at its Producer.
-/

/-- Modelled from the spec: a dead-letter record packages the current
NodeData (none when the Producer itself failed before producing), the
failing node's identifier and the failure description.  Missing in src:
the DeadLetterSink implementation. -/
structure DeadLetter (Data : Type) where
  payload : Option Data
  nodeId : String
  error : String
deriving DecidableEq

/-- Observable scheduling events of one loop, in order: an invocation
starts, then either returns (`invokeEnd`, with `none` modelling a
Producer's "no work" return) or raises (`invokeFail`); dead-letter
submission, the idle backoff sleep, and the end of an iteration are also
recorded. -/
inductive Event (Data : Type) where
  | invokeStart (id : String) (input : Option Data)
  | invokeEnd (id : String) (output : Option Data)
  | invokeFail (id : String) (err : String)
  | dlqSubmit (rec : DeadLetter Data)
  | sleepBackoff
  | iterEnd
deriving DecidableEq

/-- Outcome of a chain node's `execute`: a result plus an optional branch
selector (used by ConditionalBlocking), or a raised failure. -/
inductive NodeOutcome (Data : Type) where
  | success (d : Data) (branch : Option String)
  | failure (err : String)
deriving DecidableEq

/-- Outcome of a Producer invocation: the first NodeData of the iteration,
the well-defined "no work" signal, or a raised failure. -/
inductive ProducerOutcome (Data : Type) where
  | produced (d : Data)
  | noWork
  | failure (err : String)
deriving DecidableEq

/-- Modelled from the spec: the downstream chain of a loop, as resolved
from the edge list: a plain node with its NonBlocking tag and its (at
most one) configured successor, or a ConditionalBlocking node with its
two statically-known labelled branches.  Missing in src: the graph
resolution code. -/
inductive Chain where
  | nil : Chain
  | seq (id : String) (nonBlocking : Bool) (rest : Chain) : Chain
  | cond (id : String) (lbl1 : String) (br1 : Chain) (lbl2 : String)
      (br2 : Chain) : Chain
deriving DecidableEq

/-- Why the walk of one iteration stopped. -/
inductive StopReason where
  | nonBlockingDone (id : String)
  | endOfChain
  | nodeFailed (id : String)
  | producerNoWork
  | producerFailed
deriving DecidableEq

/-- Everything one iteration produced: its ordered event trace, the
dead-letter records it submitted, and why it stopped. -/
structure IterResult (Data : Type) where
  events : List (Event Data)
  dlq : List (DeadLetter Data)
  stop : StopReason
deriving DecidableEq

/-- Failure description used when a ConditionalBlocking selector maps to
no configured edge. -/
def unmappedBranchMsg : String := "UnmappedBranch"

/-- Modelled from the spec: the LoopManager's chain walk (step 2 and 3 of
the execution cycle).  Each downstream node is invoked with the current
NodeData, the data is replaced by the node's result, and the walk stops
when the just-invoked node is NonBlocking, when it has no configured
successor, or when it fails (which submits exactly one dead-letter record
before the iteration ends).  A ConditionalBlocking selector that matches
no configured branch label is treated as a failure of that node. -/
def runChain {Data : Type} (exec : String → Data → NodeOutcome Data) :
    Chain → Data → IterResult Data
  | Chain.nil, _ => ⟨[Event.iterEnd], [], StopReason.endOfChain⟩
  | Chain.seq id nb rest, d =>
    match exec id d with
    | NodeOutcome.failure e =>
      ⟨[Event.invokeStart id (some d), Event.invokeFail id e,
        Event.dlqSubmit ⟨some d, id, e⟩, Event.iterEnd],
       [⟨some d, id, e⟩], StopReason.nodeFailed id⟩
    | NodeOutcome.success d' _ =>
      if nb then
        ⟨[Event.invokeStart id (some d), Event.invokeEnd id (some d'),
          Event.iterEnd],
         [], StopReason.nonBlockingDone id⟩
      else
        let r := runChain exec rest d'
        ⟨Event.invokeStart id (some d) :: Event.invokeEnd id (some d')
          :: r.events, r.dlq, r.stop⟩
  | Chain.cond id lbl1 br1 lbl2 br2, d =>
    match exec id d with
    | NodeOutcome.failure e =>
      ⟨[Event.invokeStart id (some d), Event.invokeFail id e,
        Event.dlqSubmit ⟨some d, id, e⟩, Event.iterEnd],
       [⟨some d, id, e⟩], StopReason.nodeFailed id⟩
    | NodeOutcome.success d' sel =>
      match sel with
      | some lbl =>
        if lbl = lbl1 then
          let r := runChain exec br1 d'
          ⟨Event.invokeStart id (some d) :: Event.invokeEnd id (some d')
            :: r.events, r.dlq, r.stop⟩
        else if lbl = lbl2 then
          let r := runChain exec br2 d'
          ⟨Event.invokeStart id (some d) :: Event.invokeEnd id (some d')
            :: r.events, r.dlq, r.stop⟩
        else
          ⟨[Event.invokeStart id (some d), Event.invokeEnd id (some d'),
            Event.dlqSubmit ⟨some d', id, unmappedBranchMsg⟩, Event.iterEnd],
           [⟨some d', id, unmappedBranchMsg⟩], StopReason.nodeFailed id⟩
      | none =>
        ⟨[Event.invokeStart id (some d), Event.invokeEnd id (some d'),
          Event.dlqSubmit ⟨some d', id, unmappedBranchMsg⟩, Event.iterEnd],
         [⟨some d', id, unmappedBranchMsg⟩], StopReason.nodeFailed id⟩

/-- The event trace of an iteration whose Producer signalled "no work":
the Producer returns (a non-error return), the LoopManager sleeps the
bounded backoff interval and the iteration ends without touching the
chain. -/
def noWorkEvents (Data : Type) (pid : String) : List (Event Data) :=
  [Event.invokeStart pid none, Event.invokeEnd pid none,
   Event.sleepBackoff, Event.iterEnd]

/-- Modelled from the spec: one full iteration of the LoopManager cycle,
starting with the Producer invocation (which receives no input).  On "no
work" the LoopManager sleeps and retries without advancing the chain; on
a Producer failure it dead-letters and ends the iteration; on produced
data it walks the chain. -/
def runIteration {Data : Type} (exec : String → Data → NodeOutcome Data)
    (pid : String) (chain : Chain) :
    ProducerOutcome Data → IterResult Data
  | ProducerOutcome.noWork =>
    ⟨noWorkEvents Data pid, [], StopReason.producerNoWork⟩
  | ProducerOutcome.failure e =>
    ⟨[Event.invokeStart pid none, Event.invokeFail pid e,
      Event.dlqSubmit ⟨none, pid, e⟩, Event.iterEnd],
     [⟨none, pid, e⟩], StopReason.producerFailed⟩
  | ProducerOutcome.produced d =>
    let r := runChain exec chain d
    ⟨Event.invokeStart pid none :: Event.invokeEnd pid (some d)
      :: r.events, r.dlq, r.stop⟩

/-- Modelled from the spec: the loop runs iteration after iteration, each
one restarting at the Producer; the trace of a run is the concatenation of
its iterations' traces.  The list of Producer outcomes supplies what the
Producer does on each successive iteration. -/
def runLoop {Data : Type} (exec : String → Data → NodeOutcome Data)
    (pid : String) (chain : Chain) :
    List (ProducerOutcome Data) →
      List (Event Data) × List (DeadLetter Data)
  | [] => ([], [])
  | po :: pos =>
    let r := runIteration exec pid chain po
    let rest := runLoop exec pid chain pos
    (r.events ++ rest.1, r.dlq ++ rest.2)

/-- The externally visible states of one loop. -/
inductive LoopState where
  | idle | running | error | stopped
deriving DecidableEq

/-- What can happen to a loop: it is started, an iteration finishes with
some stop reason, an external stop is requested, or a structural condition
(an unconstructible Producer, or the implementation-defined repeated
unmapped-branch threshold) makes it unable to continue. -/
inductive LoopSignal where
  | start
  | iterFinished (stop : StopReason)
  | stopRequest
  | structuralFailure
deriving DecidableEq

/-- Modelled from the spec: the per-loop state machine
`IDLE -> RUNNING -> (ERROR | STOPPED)`, with RUNNING re-entering itself on
every iteration outcome, STOPPED only on an external stop request and
ERROR only on a structural condition. -/
def loopStep : LoopState → LoopSignal → LoopState
  | LoopState.idle, LoopSignal.start => LoopState.running
  | LoopState.running, LoopSignal.iterFinished _ => LoopState.running
  | LoopState.running, LoopSignal.stopRequest => LoopState.stopped
  | LoopState.idle, LoopSignal.stopRequest => LoopState.stopped
  | LoopState.idle, LoopSignal.structuralFailure => LoopState.error
  | LoopState.running, LoopSignal.structuralFailure => LoopState.error
  | s, _ => s

/-- Recognizes the end-of-iteration marker. -/
def isIterEnd {Data : Type} : Event Data → Bool
  | Event.iterEnd => true
  | _ => false

/-- The node identifiers invoked in a trace, in invocation order. -/
def invokedIds {Data : Type} (evs : List (Event Data)) : List String :=
  evs.filterMap fun e =>
    match e with
    | Event.invokeStart id _ => some id
    | _ => none

/-- Checker for the single-in-flight discipline: scanning the trace with
the number of currently in-flight `execute` calls (0 or 1), every
invocation must start with none in flight and finish (return or raise)
before anything else happens, and the trace must end with none in
flight. -/
def seqOk {Data : Type} : Nat → List (Event Data) → Bool
  | k, [] => k == 0
  | k, Event.invokeStart _ _ :: rest => k == 0 && seqOk 1 rest
  | k, Event.invokeEnd _ _ :: rest => k == 1 && seqOk 0 rest
  | k, Event.invokeFail _ _ :: rest => k == 1 && seqOk 0 rest
  | k, Event.dlqSubmit _ :: rest => seqOk k rest
  | k, Event.sleepBackoff :: rest => seqOk k rest
  | k, Event.iterEnd :: rest => seqOk k rest

/-- The invocation sequences that follow the chain's configured successor
order: starting from the chain head, each invocation is followed either by
nothing (the walk stopped there) or by the successor configured for that
node (for ConditionalBlocking, one of its two configured branches). -/
inductive IsWalk : Chain → List String → Prop where
  | nil : IsWalk Chain.nil []
  | seqStop (id : String) (nb : Bool) (rest : Chain) :
      IsWalk (Chain.seq id nb rest) [id]
  | seqStep (id : String) (nb : Bool) (rest : Chain) (ids : List String) :
      IsWalk rest ids → IsWalk (Chain.seq id nb rest) (id :: ids)
  | condStop (id lbl1 : String) (br1 : Chain) (lbl2 : String) (br2 : Chain) :
      IsWalk (Chain.cond id lbl1 br1 lbl2 br2) [id]
  | condLeft (id lbl1 : String) (br1 : Chain) (lbl2 : String) (br2 : Chain)
      (ids : List String) :
      IsWalk br1 ids → IsWalk (Chain.cond id lbl1 br1 lbl2 br2) (id :: ids)
  | condRight (id lbl1 : String) (br1 : Chain) (lbl2 : String) (br2 : Chain)
      (ids : List String) :
      IsWalk br2 ids → IsWalk (Chain.cond id lbl1 br1 lbl2 br2) (id :: ids)

theorem runChain_iterEnd_count {Data : Type}
    (exec : String → Data → NodeOutcome Data) :
    ∀ (c : Chain) (d : Data),
      (runChain exec c d).events.countP isIterEnd = 1 := by
  intro c
  induction c with
  | nil => intro d; rfl
  | seq id nb rest ih =>
    intro d
    cases h : exec id d with
    | failure e => simp [runChain, h, List.countP_cons, isIterEnd]
    | success d' sel =>
      cases nb with
      | true => simp [runChain, h, List.countP_cons, isIterEnd]
      | false => simp [runChain, h, List.countP_cons, isIterEnd, ih d']
  | cond id lbl1 br1 lbl2 br2 ih1 ih2 =>
    intro d
    cases h : exec id d with
    | failure e => simp [runChain, h, List.countP_cons, isIterEnd]
    | success d' sel =>
      cases sel with
      | none => simp [runChain, h, List.countP_cons, isIterEnd]
      | some lbl =>
        by_cases h1 : lbl = lbl1
        · simp [runChain, h, h1, List.countP_cons, isIterEnd, ih1 d']
        · by_cases h2 : lbl = lbl2
          · simp only [runChain, h]
            rw [if_neg h1, if_pos h2]
            simp [List.countP_cons, isIterEnd, ih2 d']
          · simp [runChain, h, h1, h2, List.countP_cons, isIterEnd]

theorem runIteration_iterEnd_count {Data : Type}
    (exec : String → Data → NodeOutcome Data) (pid : String)
    (chain : Chain) (po : ProducerOutcome Data) :
    (runIteration exec pid chain po).events.countP isIterEnd = 1 := by
  cases po with
  | noWork => rfl
  | failure e => rfl
  | produced d =>
    simp [runIteration, List.countP_cons, isIterEnd,
      runChain_iterEnd_count exec chain d]

theorem seqOk_append {Data : Type} :
    ∀ (xs : List (Event Data)) (k : Nat) (ys : List (Event Data)),
      seqOk k xs = true → seqOk 0 ys = true →
      seqOk k (xs ++ ys) = true := by
  intro xs
  induction xs with
  | nil =>
    intro k ys hx hy
    have : k = 0 := by simpa [seqOk] using hx
    simpa [this] using hy
  | cons e rest ih =>
    intro k ys hx hy
    cases e with
    | invokeStart id i =>
      simp only [seqOk, Bool.and_eq_true] at hx
      simp only [List.cons_append, seqOk, Bool.and_eq_true]
      exact ⟨hx.1, ih 1 ys hx.2 hy⟩
    | invokeEnd id o =>
      simp only [seqOk, Bool.and_eq_true] at hx
      simp only [List.cons_append, seqOk, Bool.and_eq_true]
      exact ⟨hx.1, ih 0 ys hx.2 hy⟩
    | invokeFail id err =>
      simp only [seqOk, Bool.and_eq_true] at hx
      simp only [List.cons_append, seqOk, Bool.and_eq_true]
      exact ⟨hx.1, ih 0 ys hx.2 hy⟩
    | dlqSubmit rec =>
      simp only [seqOk] at hx
      simpa [seqOk] using ih k ys hx hy
    | sleepBackoff =>
      simp only [seqOk] at hx
      simpa [seqOk] using ih k ys hx hy
    | iterEnd =>
      simp only [seqOk] at hx
      simpa [seqOk] using ih k ys hx hy

theorem runChain_seqOk {Data : Type}
    (exec : String → Data → NodeOutcome Data) :
    ∀ (c : Chain) (d : Data), seqOk 0 (runChain exec c d).events = true := by
  intro c
  induction c with
  | nil => intro d; rfl
  | seq id nb rest ih =>
    intro d
    cases h : exec id d with
    | failure e => simp [runChain, h, seqOk]
    | success d' sel =>
      cases nb with
      | true => simp [runChain, h, seqOk]
      | false => simp [runChain, h, seqOk, ih d']
  | cond id lbl1 br1 lbl2 br2 ih1 ih2 =>
    intro d
    cases h : exec id d with
    | failure e => simp [runChain, h, seqOk]
    | success d' sel =>
      cases sel with
      | none => simp [runChain, h, seqOk]
      | some lbl =>
        by_cases h1 : lbl = lbl1
        · simp [runChain, h, h1, seqOk, ih1 d']
        · by_cases h2 : lbl = lbl2
          · simp only [runChain, h]
            rw [if_neg h1, if_pos h2]
            simp [seqOk, ih2 d']
          · simp [runChain, h, h1, h2, seqOk]

theorem runIteration_seqOk {Data : Type}
    (exec : String → Data → NodeOutcome Data) (pid : String)
    (chain : Chain) (po : ProducerOutcome Data) :
    seqOk 0 (runIteration exec pid chain po).events = true := by
  cases po with
  | noWork => rfl
  | failure e => rfl
  | produced d =>
    simp [runIteration, seqOk, runChain_seqOk exec chain d]

theorem runLoop_seqOk {Data : Type}
    (exec : String → Data → NodeOutcome Data) (pid : String)
    (chain : Chain) :
    ∀ pos : List (ProducerOutcome Data),
      seqOk 0 (runLoop exec pid chain pos).1 = true := by
  intro pos
  induction pos with
  | nil => rfl
  | cons po rest ih =>
    simpa [runLoop] using
      seqOk_append (runIteration exec pid chain po).events 0
        (runLoop exec pid chain rest).1
        (runIteration_seqOk exec pid chain po) ih

theorem runChain_isWalk {Data : Type}
    (exec : String → Data → NodeOutcome Data) :
    ∀ (c : Chain) (d : Data),
      IsWalk c (invokedIds (runChain exec c d).events) := by
  intro c
  induction c with
  | nil => intro d; exact IsWalk.nil
  | seq id nb rest ih =>
    intro d
    cases h : exec id d with
    | failure e =>
      simpa [runChain, h, invokedIds] using IsWalk.seqStop id nb rest
    | success d' sel =>
      cases nb with
      | true => simpa [runChain, h, invokedIds] using IsWalk.seqStop id true rest
      | false =>
        have := ih d'
        simpa [runChain, h, invokedIds] using
          IsWalk.seqStep id false rest _ this
  | cond id lbl1 br1 lbl2 br2 ih1 ih2 =>
    intro d
    cases h : exec id d with
    | failure e =>
      simpa [runChain, h, invokedIds] using
        IsWalk.condStop id lbl1 br1 lbl2 br2
    | success d' sel =>
      cases sel with
      | none =>
        simpa [runChain, h, invokedIds] using
          IsWalk.condStop id lbl1 br1 lbl2 br2
      | some lbl =>
        by_cases h1 : lbl = lbl1
        · have := ih1 d'
          simpa [runChain, h, h1, invokedIds] using
            IsWalk.condLeft id lbl1 br1 lbl2 br2 _ this
        · by_cases h2 : lbl = lbl2
          · have := ih2 d'
            simp only [runChain, h]
            rw [if_neg h1, if_pos h2]
            simpa [invokedIds] using
              IsWalk.condRight id lbl1 br1 lbl2 br2 _ this
          · simpa [runChain, h, h1, h2, invokedIds] using
              IsWalk.condStop id lbl1 br1 lbl2 br2

/-- Recognizes the stop reasons caused by a failed node invocation. -/
def isFailStop : StopReason → Bool
  | StopReason.nodeFailed _ => true
  | StopReason.producerFailed => true
  | _ => false

theorem runChain_nil_eq {Data : Type}
    (exec : String → Data → NodeOutcome Data) (d : Data) :
    runChain exec Chain.nil d
      = ⟨[Event.iterEnd], [], StopReason.endOfChain⟩ := rfl

theorem runChain_seq_fail_eq {Data : Type}
    (exec : String → Data → NodeOutcome Data) (id : String) (nb : Bool)
    (rest : Chain) (d : Data) (e : String)
    (h : exec id d = NodeOutcome.failure e) :
    runChain exec (Chain.seq id nb rest) d
      = ⟨[Event.invokeStart id (some d), Event.invokeFail id e,
          Event.dlqSubmit ⟨some d, id, e⟩, Event.iterEnd],
         [⟨some d, id, e⟩], StopReason.nodeFailed id⟩ := by
  simp [runChain, h]

theorem runChain_seq_nonBlocking_eq {Data : Type}
    (exec : String → Data → NodeOutcome Data) (id : String) (rest : Chain)
    (d d' : Data) (sel : Option String)
    (h : exec id d = NodeOutcome.success d' sel) :
    runChain exec (Chain.seq id true rest) d
      = ⟨[Event.invokeStart id (some d), Event.invokeEnd id (some d'),
          Event.iterEnd],
         [], StopReason.nonBlockingDone id⟩ := by
  simp [runChain, h]

theorem runChain_seq_blocking_eq {Data : Type}
    (exec : String → Data → NodeOutcome Data) (id : String) (rest : Chain)
    (d d' : Data) (sel : Option String)
    (h : exec id d = NodeOutcome.success d' sel) :
    runChain exec (Chain.seq id false rest) d
      = ⟨Event.invokeStart id (some d) :: Event.invokeEnd id (some d')
          :: (runChain exec rest d').events,
         (runChain exec rest d').dlq, (runChain exec rest d').stop⟩ := by
  simp [runChain, h]

theorem runChain_dlq_le_one {Data : Type}
    (exec : String → Data → NodeOutcome Data) :
    ∀ (c : Chain) (d : Data), (runChain exec c d).dlq.length ≤ 1 := by
  intro c
  induction c with
  | nil => intro d; simp [runChain]
  | seq id nb rest ih =>
    intro d
    cases h : exec id d with
    | failure e => simp [runChain, h]
    | success d' sel =>
      cases nb with
      | true => simp [runChain, h]
      | false => simpa [runChain, h] using ih d'
  | cond id lbl1 br1 lbl2 br2 ih1 ih2 =>
    intro d
    cases h : exec id d with
    | failure e => simp [runChain, h]
    | success d' sel =>
      cases sel with
      | none => simp [runChain, h]
      | some lbl =>
        by_cases h1 : lbl = lbl1
        · simpa [runChain, h, h1] using ih1 d'
        · by_cases h2 : lbl = lbl2
          · simp only [runChain, h]
            rw [if_neg h1, if_pos h2]
            simpa using ih2 d'
          · simp [runChain, h, h1, h2]

theorem runChain_dlq_iff_failed {Data : Type}
    (exec : String → Data → NodeOutcome Data) :
    ∀ (c : Chain) (d : Data),
      (runChain exec c d).dlq ≠ []
        ↔ isFailStop (runChain exec c d).stop = true := by
  intro c
  induction c with
  | nil => intro d; simp [runChain, isFailStop]
  | seq id nb rest ih =>
    intro d
    cases h : exec id d with
    | failure e => simp [runChain, h, isFailStop]
    | success d' sel =>
      cases nb with
      | true => simp [runChain, h, isFailStop]
      | false => simpa [runChain, h] using ih d'
  | cond id lbl1 br1 lbl2 br2 ih1 ih2 =>
    intro d
    cases h : exec id d with
    | failure e => simp [runChain, h, isFailStop]
    | success d' sel =>
      cases sel with
      | none => simp [runChain, h, isFailStop]
      | some lbl =>
        by_cases h1 : lbl = lbl1
        · simpa [runChain, h, h1] using ih1 d'
        · by_cases h2 : lbl = lbl2
          · simp only [runChain, h]
            rw [if_neg h1, if_pos h2]
            simpa using ih2 d'
          · simp [runChain, h, h1, h2, isFailStop]

theorem runIteration_dlq_le_one {Data : Type}
    (exec : String → Data → NodeOutcome Data) (pid : String)
    (chain : Chain) (po : ProducerOutcome Data) :
    (runIteration exec pid chain po).dlq.length ≤ 1 := by
  cases po with
  | noWork => simp [runIteration]
  | failure e => simp [runIteration]
  | produced d => simpa [runIteration] using runChain_dlq_le_one exec chain d

theorem runIteration_dlq_iff_failed {Data : Type}
    (exec : String → Data → NodeOutcome Data) (pid : String)
    (chain : Chain) (po : ProducerOutcome Data) :
    (runIteration exec pid chain po).dlq ≠ []
      ↔ isFailStop (runIteration exec pid chain po).stop = true := by
  cases po with
  | noWork => simp [runIteration, isFailStop, noWorkEvents]
  | failure e => simp [runIteration, isFailStop]
  | produced d =>
    simpa [runIteration] using runChain_dlq_iff_failed exec chain d

theorem runChain_nonBlocking_last {Data : Type}
    (exec : String → Data → NodeOutcome Data) :
    ∀ (c : Chain) (d : Data) (id : String),
      (runChain exec c d).stop = StopReason.nonBlockingDone id →
      ∃ (d' : Data) (pre : List (Event Data)),
        (runChain exec c d).events
          = pre ++ [Event.invokeEnd id (some d'), Event.iterEnd] := by
  intro c
  induction c with
  | nil => intro d id hstop; simp [runChain] at hstop
  | seq nid nb rest ih =>
    intro d id hstop
    cases h : exec nid d with
    | failure e => rw [runChain_seq_fail_eq exec nid nb rest d e h] at hstop ⊢; simp at hstop
    | success d' sel =>
      cases nb with
      | true =>
        rw [runChain_seq_nonBlocking_eq exec nid rest d d' sel h] at hstop ⊢
        simp at hstop
        subst hstop
        exact ⟨d', [Event.invokeStart nid (some d)], rfl⟩
      | false =>
        rw [runChain_seq_blocking_eq exec nid rest d d' sel h] at hstop ⊢
        simp only at hstop
        obtain ⟨d'', pre, hpre⟩ := ih d' id hstop
        exact ⟨d'', Event.invokeStart nid (some d)
          :: Event.invokeEnd nid (some d') :: pre, by simp [hpre]⟩
  | cond nid lbl1 br1 lbl2 br2 ih1 ih2 =>
    intro d id hstop
    cases h : exec nid d with
    | failure e =>
      simp only [runChain, h] at hstop
      simp at hstop
    | success d' sel =>
      cases sel with
      | none =>
        simp only [runChain, h] at hstop
        simp at hstop
      | some lbl =>
        by_cases h1 : lbl = lbl1
        · simp only [runChain, h, if_pos h1] at hstop ⊢
          obtain ⟨d'', pre, hpre⟩ := ih1 d' id hstop
          exact ⟨d'', Event.invokeStart nid (some d)
            :: Event.invokeEnd nid (some d') :: pre, by simp [hpre]⟩
        · by_cases h2 : lbl = lbl2
          · simp only [runChain, h, if_neg h1, if_pos h2] at hstop ⊢
            obtain ⟨d'', pre, hpre⟩ := ih2 d' id hstop
            exact ⟨d'', Event.invokeStart nid (some d)
              :: Event.invokeEnd nid (some d') :: pre, by simp [hpre]⟩
          · simp only [runChain, h, if_neg h1, if_neg h2] at hstop
            simp at hstop

theorem runIteration_head {Data : Type}
    (exec : String → Data → NodeOutcome Data) (pid : String)
    (chain : Chain) (po : ProducerOutcome Data) :
    (runIteration exec pid chain po).events.head?
      = some (Event.invokeStart pid none) := by
  cases po <;> rfl

theorem runLoop_cons {Data : Type}
    (exec : String → Data → NodeOutcome Data) (pid : String)
    (chain : Chain) (po : ProducerOutcome Data)
    (pos : List (ProducerOutcome Data)) :
    runLoop exec pid chain (po :: pos)
      = ((runIteration exec pid chain po).events
          ++ (runLoop exec pid chain pos).1,
         (runIteration exec pid chain po).dlq
          ++ (runLoop exec pid chain pos).2) := rfl

/-- Claim C1: the chain walk stops exactly when the just-invoked node is
NonBlocking or has no configured successor: every iteration trace carries
exactly one end-of-iteration event; after a successful NonBlocking
invocation the iteration ends regardless of any configured successors
(none of them is invoked); an empty successor ends the iteration; and a
successful non-NonBlocking invocation with a successor continues the
walk. -/
theorem loopManager_iteration_end_condition {Data : Type} :
    (∀ (exec : String → Data → NodeOutcome Data) (pid : String)
      (chain : Chain) (po : ProducerOutcome Data),
      (runIteration exec pid chain po).events.countP isIterEnd = 1)
    ∧ (∀ (exec : String → Data → NodeOutcome Data) (id : String)
        (rest : Chain) (d d' : Data) (sel : Option String),
        exec id d = NodeOutcome.success d' sel →
        runChain exec (Chain.seq id true rest) d
          = ⟨[Event.invokeStart id (some d), Event.invokeEnd id (some d'),
              Event.iterEnd],
             [], StopReason.nonBlockingDone id⟩)
    ∧ (∀ (exec : String → Data → NodeOutcome Data) (d : Data),
        runChain exec Chain.nil d
          = ⟨[Event.iterEnd], [], StopReason.endOfChain⟩)
    ∧ (∀ (exec : String → Data → NodeOutcome Data) (id : String)
        (rest : Chain) (d d' : Data) (sel : Option String),
        exec id d = NodeOutcome.success d' sel →
        runChain exec (Chain.seq id false rest) d
          = ⟨Event.invokeStart id (some d) :: Event.invokeEnd id (some d')
              :: (runChain exec rest d').events,
             (runChain exec rest d').dlq, (runChain exec rest d').stop⟩) :=
  ⟨fun exec pid chain po => runIteration_iterEnd_count exec pid chain po,
   fun exec id rest d d' sel h =>
     runChain_seq_nonBlocking_eq exec id rest d d' sel h,
   fun exec d => runChain_nil_eq exec d,
   fun exec id rest d d' sel h =>
     runChain_seq_blocking_eq exec id rest d d' sel h⟩

/-- A concrete node behaviour for witnesses: every execute succeeds and
increments the data. -/
def wExec : String → Nat → NodeOutcome Nat :=
  fun _ d => NodeOutcome.success (d + 1) none

/-- A concrete node behaviour for witnesses: every execute fails. -/
def wFailExec : String → Nat → NodeOutcome Nat :=
  fun _ _ => NodeOutcome.failure "boom"

theorem loopManager_iteration_end_witness :
    runChain wExec (Chain.seq "w" true (Chain.seq "x" false Chain.nil)) 2
      = ⟨[Event.invokeStart "w" (some 2), Event.invokeEnd "w" (some 3),
          Event.iterEnd],
         [], StopReason.nonBlockingDone "w"⟩ :=
  loopManager_iteration_end_condition.2.1 wExec "w"
    (Chain.seq "x" false Chain.nil) 2 3 none rfl

/-- Claim C2: the LoopManager waits for every node's execute to return,
NonBlocking included: a successful NonBlocking invocation produces its
return event inside the iteration trace before the iteration ends; any
iteration that stops at a NonBlocking node ends with that node's return
event followed by the end-of-iteration marker; and the loop restarts at
the Producer only afterwards — the next iteration's trace follows the
current one and begins with the Producer invocation. -/
theorem loopManager_waits_for_nonBlocking {Data : Type} :
    (∀ (exec : String → Data → NodeOutcome Data) (id : String)
      (rest : Chain) (d d' : Data) (sel : Option String),
      exec id d = NodeOutcome.success d' sel →
      (runChain exec (Chain.seq id true rest) d).events
        = [Event.invokeStart id (some d), Event.invokeEnd id (some d'),
           Event.iterEnd])
    ∧ (∀ (exec : String → Data → NodeOutcome Data) (c : Chain) (d : Data)
        (id : String),
        (runChain exec c d).stop = StopReason.nonBlockingDone id →
        ∃ (d' : Data) (pre : List (Event Data)),
          (runChain exec c d).events
            = pre ++ [Event.invokeEnd id (some d'), Event.iterEnd])
    ∧ (∀ (exec : String → Data → NodeOutcome Data) (pid : String)
        (chain : Chain) (po : ProducerOutcome Data)
        (pos : List (ProducerOutcome Data)),
        (runLoop exec pid chain (po :: pos)).1
          = (runIteration exec pid chain po).events
            ++ (runLoop exec pid chain pos).1)
    ∧ (∀ (exec : String → Data → NodeOutcome Data) (pid : String)
        (chain : Chain) (po : ProducerOutcome Data),
        (runIteration exec pid chain po).events.head?
          = some (Event.invokeStart pid none)) := by
  refine ⟨?_, ?_, ?_, ?_⟩
  · intro exec id rest d d' sel h
    rw [runChain_seq_nonBlocking_eq exec id rest d d' sel h]
  · intro exec c d id h
    exact runChain_nonBlocking_last exec c d id h
  · intro exec pid chain po pos
    rw [runLoop_cons]
  · intro exec pid chain po
    exact runIteration_head exec pid chain po

theorem loopManager_waits_witness :
    (runChain wExec (Chain.seq "w" true Chain.nil) 5).events
      = [Event.invokeStart "w" (some 5), Event.invokeEnd "w" (some 6),
         Event.iterEnd] :=
  loopManager_waits_for_nonBlocking.1 wExec "w" Chain.nil 5 6 none rfl

/-- Claim C3: per loop, at most one node execute is in flight at any
instant and invocations are strictly sequential in chain order: every
prefix of a loop's trace has at most one open invocation (each invocation
returns or raises before the next event), and within one iteration the
sequence of invoked chain nodes follows the chain's configured successor
order. -/
theorem loopManager_single_inflight {Data : Type} :
    (∀ (exec : String → Data → NodeOutcome Data) (pid : String)
      (chain : Chain) (pos : List (ProducerOutcome Data)),
      seqOk 0 (runLoop exec pid chain pos).1 = true)
    ∧ (∀ (exec : String → Data → NodeOutcome Data) (c : Chain) (d : Data),
        IsWalk c (invokedIds (runChain exec c d).events)) :=
  ⟨fun exec pid chain pos => runLoop_seqOk exec pid chain pos,
   fun exec c d => runChain_isWalk exec c d⟩

/-- Claim C4: every node failure produces exactly one dead-letter record,
containing the current NodeData, the failing node's identifier and the
failure description, submitted before the iteration's end marker; the
rest of the chain is abandoned (the result does not depend on the failing
node's successors) and the loop resumes at its Producer on the very next
step.  An iteration emits a dead-letter record exactly when a node (or
the Producer) failed, and never more than one. -/
theorem loopManager_dead_letter_policy {Data : Type} :
    (∀ (exec : String → Data → NodeOutcome Data) (id : String) (nb : Bool)
      (rest : Chain) (d : Data) (e : String),
      exec id d = NodeOutcome.failure e →
      runChain exec (Chain.seq id nb rest) d
        = ⟨[Event.invokeStart id (some d), Event.invokeFail id e,
            Event.dlqSubmit ⟨some d, id, e⟩, Event.iterEnd],
           [⟨some d, id, e⟩], StopReason.nodeFailed id⟩)
    ∧ (∀ (exec : String → Data → NodeOutcome Data) (pid : String)
        (chain : Chain) (e : String),
        runIteration exec pid chain (ProducerOutcome.failure e)
          = ⟨[Event.invokeStart pid none, Event.invokeFail pid e,
              Event.dlqSubmit ⟨none, pid, e⟩, Event.iterEnd],
             [⟨none, pid, e⟩], StopReason.producerFailed⟩)
    ∧ (∀ (exec : String → Data → NodeOutcome Data) (pid : String)
        (chain : Chain) (po : ProducerOutcome Data),
        (runIteration exec pid chain po).dlq.length ≤ 1)
    ∧ (∀ (exec : String → Data → NodeOutcome Data) (pid : String)
        (chain : Chain) (po : ProducerOutcome Data),
        (runIteration exec pid chain po).dlq ≠ []
          ↔ isFailStop (runIteration exec pid chain po).stop = true)
    ∧ (∀ (exec : String → Data → NodeOutcome Data) (pid : String)
        (chain : Chain) (po : ProducerOutcome Data),
        (runIteration exec pid chain po).events.head?
          = some (Event.invokeStart pid none)) :=
  ⟨fun exec id nb rest d e h => runChain_seq_fail_eq exec id nb rest d e h,
   fun _ _ _ _ => rfl,
   fun exec pid chain po => runIteration_dlq_le_one exec pid chain po,
   fun exec pid chain po => runIteration_dlq_iff_failed exec pid chain po,
   fun exec pid chain po => runIteration_head exec pid chain po⟩

theorem loopManager_dead_letter_witness :
    runChain wFailExec (Chain.seq "b" false Chain.nil) 7
      = ⟨[Event.invokeStart "b" (some 7), Event.invokeFail "b" "boom",
          Event.dlqSubmit ⟨some 7, "b", "boom"⟩, Event.iterEnd],
         [⟨some 7, "b", "boom"⟩], StopReason.nodeFailed "b"⟩ :=
  loopManager_dead_letter_policy.1 wFailExec "b" false Chain.nil 7 "boom" rfl

/-- Claim C5: a node failure in one iteration never moves the loop to
ERROR: for every iteration outcome (node failure included) the loop stays
RUNNING; a step reaches ERROR only from a structural-failure signal and
STOPPED only from an external stop request. -/
theorem loopState_failure_keeps_running {Data : Type} :
    (∀ (exec : String → Data → NodeOutcome Data) (pid : String)
      (chain : Chain) (po : ProducerOutcome Data),
      loopStep LoopState.running
        (LoopSignal.iterFinished (runIteration exec pid chain po).stop)
        = LoopState.running)
    ∧ (∀ (r : StopReason),
        loopStep LoopState.running (LoopSignal.iterFinished r)
          = LoopState.running)
    ∧ (∀ (s : LoopState) (sig : LoopSignal),
        loopStep s sig = LoopState.error →
        s = LoopState.error ∨ sig = LoopSignal.structuralFailure)
    ∧ (∀ (s : LoopState) (sig : LoopSignal),
        loopStep s sig = LoopState.stopped →
        s = LoopState.stopped ∨ sig = LoopSignal.stopRequest) := by
  refine ⟨fun _ _ _ _ => rfl, fun _ => rfl, ?_, ?_⟩
  · intro s sig h
    cases s <;> cases sig <;> simp_all [loopStep]
  · intro s sig h
    cases s <;> cases sig <;> simp_all [loopStep]

theorem loopState_failure_witness :
    LoopState.idle = LoopState.error
      ∨ LoopSignal.structuralFailure = LoopSignal.structuralFailure :=
  (@loopState_failure_keeps_running Nat).2.2.1
    LoopState.idle LoopSignal.structuralFailure rfl

/-- Claim C7: a Producer "no work" signal makes the LoopManager sleep the
backoff interval and re-invoke the Producer without advancing the chain:
the iteration's trace invokes only the Producer and contains the backoff
sleep, no dead-letter record is emitted, any number of consecutive "no
work" iterations just repeat that pattern with an empty dead-letter list,
and the loop stays RUNNING. -/
theorem loopManager_no_work_idle {Data : Type} :
    (∀ (exec : String → Data → NodeOutcome Data) (pid : String)
      (chain : Chain),
      runIteration exec pid chain ProducerOutcome.noWork
        = ⟨noWorkEvents Data pid, [], StopReason.producerNoWork⟩)
    ∧ (∀ (pid : String), invokedIds (noWorkEvents Data pid) = [pid])
    ∧ (∀ (exec : String → Data → NodeOutcome Data) (pid : String)
        (chain : Chain) (k : Nat),
        runLoop exec pid chain (List.replicate k ProducerOutcome.noWork)
          = ((List.replicate k (noWorkEvents Data pid)).flatten, []))
    ∧ loopStep LoopState.running
        (LoopSignal.iterFinished StopReason.producerNoWork)
        = LoopState.running := by
  refine ⟨fun _ _ _ => rfl, fun pid => rfl, ?_, rfl⟩
  intro exec pid chain k
  induction k with
  | zero => rfl
  | succ n ih => simp [List.replicate_succ, runLoop, ih, runIteration]

/-! ## Form dependencies

Translated from `src/views/static/js/form-dependencies.js`:
`clearDependentFields(parentField)` looks up
`currentFormDependencies[parentField] || []` and, for each dependent
field, clears its select element and recurses into that field without any
visited-set or depth guard.
-/

/-- The `currentFormDependencies` object: a finite map from a parent field
name to the names of the fields directly depending on it. -/
abbrev DepMap := List (String × List String)

/-- Translation of `currentFormDependencies[parentField] || []`. -/
def getDeps (deps : DepMap) (f : String) : List String :=
  match deps.find? (fun p => p.1 == f) with
  | some p => p.2
  | none => []

/-- The direct dependency relation of the map: `y` directly depends on
`x`. -/
def depStep (deps : DepMap) (x y : String) : Prop := y ∈ getDeps deps x

/-- Fuel-indexed translation of `clearDependentFields(parentField)`: the
fuel bounds the recursion depth, `none` meaning the bound was hit (the JS
recursion is still running at that depth).  The returned list records the
dependent fields in visit order: each direct dependent is visited
(cleared) and then its own dependents are visited recursively, exactly as
the `forEach` body does. -/
def clearDependentFields (deps : DepMap) : Nat → String → Option (List String)
  | 0, _ => none
  | n + 1, f =>
    (getDeps deps f).foldr
      (fun d acc =>
        match clearDependentFields deps n d, acc with
        | some s, some w => some (d :: s ++ w)
        | _, _ => none)
      (some [])

/-- The `forEach` loop of `clearDependentFields` over a list of dependent
fields, with every recursive call bounded by fuel `n`. -/
def clearList (deps : DepMap) (n : Nat) (l : List String) :
    Option (List String) :=
  l.foldr
    (fun d acc =>
      match clearDependentFields deps n d, acc with
      | some s, some w => some (d :: s ++ w)
      | _, _ => none)
    (some [])

theorem clearDependentFields_zero (deps : DepMap) (f : String) :
    clearDependentFields deps 0 f = none := rfl

theorem clearDependentFields_succ (deps : DepMap) (n : Nat) (f : String) :
    clearDependentFields deps (n + 1) f
      = clearList deps n (getDeps deps f) := by
  simp [clearDependentFields, clearList]

theorem clearList_nil (deps : DepMap) (n : Nat) :
    clearList deps n [] = some [] := rfl

theorem clearList_cons (deps : DepMap) (n : Nat) (d : String)
    (ds : List String) :
    clearList deps n (d :: ds)
      = match clearDependentFields deps n d, clearList deps n ds with
        | some s, some w => some (d :: s ++ w)
        | _, _ => none := rfl

theorem clearDependentFields_mono (deps : DepMap) :
    ∀ n : Nat,
      (∀ (f : String) (v : List String),
        clearDependentFields deps n f = some v →
        clearDependentFields deps (n + 1) f = some v)
      ∧ (∀ (l : List String) (w : List String),
        clearList deps n l = some w →
        clearList deps (n + 1) l = some w) := by
  intro n
  induction n with
  | zero =>
    constructor
    · intro f v h
      simp [clearDependentFields_zero] at h
    · intro l w h
      cases l with
      | nil => simpa [clearList_nil] using h
      | cons d ds =>
        rw [clearList_cons, clearDependentFields_zero] at h
        simp at h
  | succ n ih =>
    have h1 : ∀ (f : String) (v : List String),
        clearDependentFields deps (n + 1) f = some v →
        clearDependentFields deps (n + 2) f = some v := by
      intro f v h
      rw [clearDependentFields_succ] at h ⊢
      exact ih.2 _ _ h
    refine ⟨h1, ?_⟩
    intro l
    induction l with
    | nil => intro w h; simpa [clearList_nil] using h
    | cons d ds ihl =>
      intro w h
      rw [clearList_cons] at h
      rw [clearList_cons]
      cases hd : clearDependentFields deps (n + 1) d with
      | none => rw [hd] at h; simp at h
      | some s =>
        rw [hd] at h
        cases hds : clearList deps (n + 1) ds with
        | none => rw [hds] at h; simp at h
        | some w' =>
          rw [hds] at h
          simp at h
          rw [h1 d s hd, ihl w' hds]
          simpa using h

theorem clearDependentFields_mono_le (deps : DepMap) :
    ∀ {n m : Nat}, n ≤ m →
      ∀ {f : String} {v : List String},
        clearDependentFields deps n f = some v →
        clearDependentFields deps m f = some v := by
  intro n m hle
  induction hle with
  | refl => intro f v h; exact h
  | step hk ihk =>
    intro f v h
    exact (clearDependentFields_mono deps _).1 _ _ (ihk h)

theorem clearList_none_of_mem (deps : DepMap) (n : Nat) :
    ∀ (l : List String) (d : String), d ∈ l →
      clearDependentFields deps n d = none →
      clearList deps n l = none := by
  intro l
  induction l with
  | nil => intro d hd; simp at hd
  | cons d' ds ih =>
    intro d hd hnone
    rw [clearList_cons]
    rcases List.mem_cons.mp hd with heq | hmem
    · subst heq
      rw [hnone]
    · rw [ih d hmem hnone]
      cases clearDependentFields deps n d' <;> rfl

theorem clearDependentFields_cycle_none (deps : DepMap) :
    ∀ (n : Nat) (f : String),
      (∃ x, Relation.ReflTransGen (depStep deps) f x
        ∧ Relation.TransGen (depStep deps) x x) →
      clearDependentFields deps n f = none := by
  intro n
  induction n with
  | zero => intro f _; rfl
  | succ n ih =>
    intro f hcyc
    obtain ⟨x, hfx, hxx⟩ := hcyc
    have hstep : ∃ d, d ∈ getDeps deps f
        ∧ ∃ x', Relation.ReflTransGen (depStep deps) d x'
          ∧ Relation.TransGen (depStep deps) x' x' := by
      rcases Relation.ReflTransGen.cases_head hfx with heq | ⟨c, hfc, hcx⟩
      · subst heq
        obtain ⟨d, hfd, hdf⟩ := (Relation.TransGen.head'_iff).mp hxx
        exact ⟨d, hfd, f, hdf, hxx⟩
      · exact ⟨c, hfc, x, hcx, hxx⟩
    obtain ⟨d, hd, hdcyc⟩ := hstep
    rw [clearDependentFields_succ]
    exact clearList_none_of_mem deps n _ d hd (ih d hdcyc)

theorem clearDependentFields_mem (deps : DepMap) :
    ∀ n : Nat,
      (∀ (f : String) (v : List String),
        clearDependentFields deps n f = some v →
        ∀ y, (y ∈ v ↔ Relation.TransGen (depStep deps) f y))
      ∧ (∀ (l : List String) (w : List String),
        clearList deps n l = some w →
        ∀ y, (y ∈ w ↔ ∃ d ∈ l, y = d ∨ Relation.TransGen (depStep deps) d y)) := by
  intro n
  induction n with
  | zero =>
    constructor
    · intro f v h
      simp [clearDependentFields_zero] at h
    · intro l w h y
      cases l with
      | nil =>
        rw [clearList_nil] at h
        simp at h
        subst h
        simp
      | cons d ds =>
        rw [clearList_cons, clearDependentFields_zero] at h
        simp at h
  | succ n ih =>
    have hP : ∀ (f : String) (v : List String),
        clearDependentFields deps (n + 1) f = some v →
        ∀ y, (y ∈ v ↔ Relation.TransGen (depStep deps) f y) := by
      intro f v h y
      rw [clearDependentFields_succ] at h
      rw [ih.2 _ _ h y]
      constructor
      · rintro ⟨d, hd, heq | htg⟩
        · subst heq
          exact Relation.TransGen.single hd
        · exact Relation.TransGen.head hd htg
      · intro htg
        obtain ⟨c, hfc, hcy⟩ := Relation.TransGen.head'_iff.mp htg
        rcases Relation.reflTransGen_iff_eq_or_transGen.mp hcy with heq | htg'
        · exact ⟨c, hfc, Or.inl heq⟩
        · exact ⟨c, hfc, Or.inr htg'⟩
    refine ⟨hP, ?_⟩
    intro l
    induction l with
    | nil =>
      intro w h y
      rw [clearList_nil] at h
      simp at h
      subst h
      simp
    | cons d ds ihl =>
      intro w h y
      rw [clearList_cons] at h
      cases hd : clearDependentFields deps (n + 1) d with
      | none => rw [hd] at h; simp at h
      | some s =>
        rw [hd] at h
        cases hds : clearList deps (n + 1) ds with
        | none => rw [hds] at h; simp at h
        | some w' =>
          rw [hds] at h
          simp at h
          subst h
          have hs := hP d s hd y
          have hw' := ihl w' hds y
          simp only [List.mem_cons, List.mem_append, hs, hw']
          constructor
          · rintro (heq | htg | ⟨d', hd', hcase⟩)
            · exact ⟨d, Or.inl rfl, Or.inl heq⟩
            · exact ⟨d, Or.inl rfl, Or.inr htg⟩
            · exact ⟨d', Or.inr hd', hcase⟩
          · rintro ⟨d', hd' | hd', hcase⟩
            · subst hd'
              rcases hcase with heq | htg
              · exact Or.inl heq
              · exact Or.inr (Or.inl htg)
            · exact Or.inr (Or.inr ⟨d', hd', hcase⟩)

/-- All fields that appear as a dependent of some field in the map. -/
def depTargets (deps : DepMap) : List String := (deps.map Prod.snd).flatten

theorem depStep_mem_targets (deps : DepMap) {x y : String}
    (h : depStep deps x y) : y ∈ depTargets deps := by
  unfold depStep getDeps at h
  cases hf : deps.find? (fun p => p.1 == x) with
  | none => rw [hf] at h; simp at h
  | some p =>
    rw [hf] at h
    have hp : p ∈ deps := List.mem_of_find?_eq_some hf
    unfold depTargets
    rw [List.mem_flatten]
    exact ⟨p.2, List.mem_map_of_mem Prod.snd hp, h⟩

theorem transGen_mem_targets (deps : DepMap) {x y : String}
    (h : Relation.TransGen (depStep deps) x y) : y ∈ depTargets deps := by
  obtain ⟨b, _, hby⟩ := Relation.TransGen.tail'_iff.mp h
  exact depStep_mem_targets deps hby

/-- The strict descendants of a field under the dependency relation. -/
def descSet (deps : DepMap) (x : String) : Set String :=
  {y | Relation.TransGen (depStep deps) x y}

theorem descSet_finite (deps : DepMap) (x : String) :
    (descSet deps x).Finite :=
  Set.Finite.subset (List.finite_toSet (depTargets deps))
    (fun _ hy => transGen_mem_targets deps hy)

theorem descSet_ncard_lt (deps : DepMap) (field : String)
    (H : ∀ z, Relation.ReflTransGen (depStep deps) field z →
      ¬ Relation.TransGen (depStep deps) z z)
    {x d : String} (hx : Relation.ReflTransGen (depStep deps) field x)
    (hd : depStep deps x d) :
    (descSet deps d).ncard < (descSet deps x).ncard := by
  have hsub : descSet deps d ⊆ descSet deps x :=
    fun y hy => Relation.TransGen.head hd hy
  have hdx : d ∈ descSet deps x := Relation.TransGen.single hd
  have hdd : d ∉ descSet deps d := H d (hx.tail hd)
  exact Set.ncard_lt_ncard
    ((Set.ssubset_iff_of_subset hsub).mpr ⟨d, hdx, hdd⟩)
    (descSet_finite deps x)

theorem exists_uniform_fuel (deps : DepMap) :
    ∀ l : List String,
      (∀ d ∈ l, ∃ n v, clearDependentFields deps n d = some v) →
      ∃ n, ∀ d ∈ l, ∃ v, clearDependentFields deps n d = some v := by
  intro l
  induction l with
  | nil => intro _; exact ⟨0, by simp⟩
  | cons d ds ih =>
    intro h
    obtain ⟨n1, v1, hv1⟩ := h d (by simp)
    obtain ⟨n2, hn2⟩ := ih (fun d' hd' => h d' (by simp [hd']))
    refine ⟨max n1 n2, ?_⟩
    intro d' hd'
    rcases List.mem_cons.mp hd' with heq | hmem
    · subst heq
      exact ⟨v1, clearDependentFields_mono_le deps (le_max_left n1 n2) hv1⟩
    · obtain ⟨v, hv⟩ := hn2 d' hmem
      exact ⟨v, clearDependentFields_mono_le deps (le_max_right n1 n2) hv⟩

theorem clearList_some_of_all (deps : DepMap) (n : Nat) :
    ∀ l : List String,
      (∀ d ∈ l, ∃ v, clearDependentFields deps n d = some v) →
      ∃ w, clearList deps n l = some w := by
  intro l
  induction l with
  | nil => intro _; exact ⟨[], rfl⟩
  | cons d ds ih =>
    intro h
    obtain ⟨s, hs⟩ := h d (by simp)
    obtain ⟨w, hw⟩ := ih (fun d' hd' => h d' (by simp [hd']))
    exact ⟨d :: s ++ w, by rw [clearList_cons, hs, hw]⟩

theorem clearDependentFields_terminates (deps : DepMap) (field : String)
    (H : ∀ z, Relation.ReflTransGen (depStep deps) field z →
      ¬ Relation.TransGen (depStep deps) z z) :
    ∃ n v, clearDependentFields deps n field = some v := by
  suffices h : ∀ (k : Nat) (x : String), (descSet deps x).ncard ≤ k →
      Relation.ReflTransGen (depStep deps) field x →
      ∃ n v, clearDependentFields deps n x = some v from
    h (descSet deps field).ncard field le_rfl Relation.ReflTransGen.refl
  intro k
  induction k with
  | zero =>
    intro x hcard _
    have hempty : getDeps deps x = [] := by
      by_contra hne
      obtain ⟨d, hd⟩ := List.exists_mem_of_ne_nil _ hne
      have hdx : d ∈ descSet deps x := Relation.TransGen.single hd
      have hpos : 0 < (descSet deps x).ncard :=
        (Set.ncard_pos (descSet_finite deps x)).mpr ⟨d, hdx⟩
      omega
    exact ⟨1, [], by rw [clearDependentFields_succ, hempty, clearList_nil]⟩
  | succ k ihk =>
    intro x hcard hx
    have hall : ∀ d ∈ getDeps deps x,
        ∃ n v, clearDependentFields deps n d = some v := by
      intro d hd
      refine ihk d ?_ (hx.tail hd)
      have hlt := descSet_ncard_lt deps field H hx hd
      omega
    obtain ⟨N, hN⟩ := exists_uniform_fuel deps _ hall
    obtain ⟨w, hw⟩ := clearList_some_of_all deps N _ hN
    exact ⟨N + 1, w, by rw [clearDependentFields_succ]; exact hw⟩

/-- Claim C10: when the dependency relation reachable from the given
field is acyclic, `clearDependentFields(field)` terminates (some recursion
depth suffices) and the fields it visits are exactly the fields
transitively dependent on the given field; when a dependency cycle is
reachable from the field, the recursion does not terminate — no recursion
depth whatsoever completes. -/
theorem clearDependentFields_acyclic_terminates (deps : DepMap)
    (field : String) :
    ((∀ z, Relation.ReflTransGen (depStep deps) field z →
        ¬ Relation.TransGen (depStep deps) z z) →
      ∃ n v, clearDependentFields deps n field = some v
        ∧ ∀ y, (y ∈ v ↔ Relation.TransGen (depStep deps) field y))
    ∧ ((∃ x, Relation.ReflTransGen (depStep deps) field x
        ∧ Relation.TransGen (depStep deps) x x) →
      ∀ n, clearDependentFields deps n field = none) := by
  constructor
  · intro H
    obtain ⟨n, v, hv⟩ := clearDependentFields_terminates deps field H
    exact ⟨n, v, hv, (clearDependentFields_mem deps n).1 field v hv⟩
  · intro hcyc n
    exact clearDependentFields_cycle_none deps n field hcyc

/-- A concrete dependency map with a self-cycle at `"a"` for the C10
witness. -/
def wDeps : DepMap := [("a", ["a"])]

theorem clearDependentFields_cycle_witness :
    clearDependentFields wDeps 5 "a" = none :=
  (clearDependentFields_acyclic_terminates wDeps "a").2
    ⟨"a", Relation.ReflTransGen.refl,
     Relation.TransGen.single
       (show "a" ∈ getDeps wDeps "a" by decide)⟩ 5

end Workflow
